import Mathlib

/-!
Verification of the silhouette-db data-generation scripts.

The development shallowly embeds the two Python modules
`generate_graph.py` and `partition_existing_graph.py`:
pure functions become Lean functions, Python dicts become
insertion-ordered association lists, Python sets become
insertion-ordered duplicate-free lists, text files become lists of
lines (each a `List Char`), and fallible operations return
`Except PyError` or `Option`.
-/

set_option maxHeartbeats 1000000

/-- Runtime errors the embedded Python code can raise.  `configurationError`
is part of the spec's error taxonomy; it is included so that claims about it
can be stated, but the embedded code never produces it. -/
inductive PyError where
  | valueErrorCapacity
  | zeroDivisionError
  | keyError
  | configurationError
deriving DecidableEq, Repr

/-- Lookup in an insertion-ordered association list (Python dict read
`d[k]` / `d.get(k)`): the first binding of the key, if any. -/
def plookup {κ α : Type} [DecidableEq κ] : List (κ × α) → κ → Option α
  | [], _ => none
  | (k, v) :: rest, x => if k = x then some v else plookup rest x

/-- Insertion into an insertion-ordered association list (Python dict
write `d[k] = v`): an existing key keeps its position and gets the new
value, a new key is appended at the end. -/
def pdictInsert {κ α : Type} [DecidableEq κ] : List (κ × α) → κ → α → List (κ × α)
  | [], k, v => [(k, v)]
  | (k', v') :: rest, k, v =>
      if k' = k then (k, v) :: rest else (k', v') :: pdictInsert rest k v

/-- Python whitespace characters relevant to `str.strip` / `str.split`. -/
def isWS (c : Char) : Bool :=
  c = ' ' ∨ c = '\t' ∨ c = '\n' ∨ c = '\r' ∨ c = '\x0b' ∨ c = '\x0c'

/-- Decimal digit test, embedding Python's digit check in `int(...)`. -/
def isDig (c : Char) : Bool := '0' ≤ c ∧ c ≤ '9'

/-- Value of a decimal digit character. -/
def digitVal (c : Char) : Nat := c.toNat - 48

/-- The decimal digit character for `d < 10`. -/
def digitChar10 (d : Nat) : Char :=
  match d with
  | 0 => '0' | 1 => '1' | 2 => '2' | 3 => '3' | 4 => '4'
  | 5 => '5' | 6 => '6' | 7 => '7' | 8 => '8' | _ => '9'

/-- Strip leading whitespace (left half of Python `str.strip`). -/
def dropLeadWS (cs : List Char) : List Char := cs.dropWhile isWS

/-- Python `str.strip()`: remove leading and trailing whitespace. -/
def pyStrip (cs : List Char) : List Char :=
  ((cs.dropWhile isWS).reverse.dropWhile isWS).reverse

/-- Auxiliary state-machine for Python `str.split()`: `cur` is the
(possibly empty) token being accumulated. -/
def splitWSAux (cur : List Char) : List Char → List (List Char)
  | [] => if cur.isEmpty then [] else [cur]
  | c :: cs =>
      if isWS c then
        if cur.isEmpty then splitWSAux [] cs else cur :: splitWSAux [] cs
      else splitWSAux (cur ++ [c]) cs

/-- Python `str.split()` with no argument: split on whitespace runs,
producing no empty tokens. -/
def pySplitWS (cs : List Char) : List (List Char) := splitWSAux [] cs

/-- Python `str.split(sep)` for a one-character separator: the result is
always non-empty and may contain empty components. -/
def splitOnSep (sep : Char) : List Char → List (List Char)
  | [] => [[]]
  | c :: cs =>
      if c = sep then [] :: splitOnSep sep cs
      else
        match splitOnSep sep cs with
        | [] => [[c]]
        | t :: ts => (c :: t) :: ts

/-- Digit-string to number: the numeric part of Python `int(...)`;
`none` unless the string is a non-empty run of decimal digits. -/
def parseDigits (cs : List Char) : Option Nat :=
  if cs ≠ [] ∧ cs.all isDig then
    some (cs.foldl (fun a c => 10 * a + digitVal c) 0)
  else none

/-- Python `int(s)` on a string: strip whitespace, optional sign,
decimal digits.  (Underscores between digits, accepted by CPython, are
not modelled; no claim depends on them.) -/
def parsePyInt (cs : List Char) : Option Int :=
  match pyStrip cs with
  | [] => none
  | c :: rest =>
      if c = '-' then (parseDigits rest).map (fun n => -(Int.ofNat n))
      else if c = '+' then (parseDigits rest).map (fun n => Int.ofNat n)
      else (parseDigits (c :: rest)).map (fun n => Int.ofNat n)

/-- Digits of a positive number, most significant first (empty for 0).
Structural recursion on `fuel`; any `fuel ≥ n` computes all digits. -/
def renderNatAux (fuel : Nat) (n : Nat) : List Char :=
  match fuel with
  | 0 => []
  | fuel + 1 =>
      if n = 0 then [] else renderNatAux fuel (n / 10) ++ [digitChar10 (n % 10)]

/-- Decimal rendering of a natural number (Python f-string `f"{n}"`). -/
def renderNat (n : Nat) : List Char :=
  if n = 0 then ['0'] else renderNatAux n n

/-- Decimal rendering of an integer (Python f-string `f"{i}"`). -/
def renderInt (i : Int) : List Char :=
  if i < 0 then '-' :: renderNat i.natAbs else renderNat i.toNat

/-- Modelled from the spec: `random.seed(seed)` followed by repeated
`random.randint` calls is a deterministic pseudo-random stream fully
determined by the seed.  The exact values are implementation-specific
(CPython uses a Mersenne twister, not embedded here); only determinism
is contracted, so any fixed function of the seed is a faithful model.
`pyRandomStream seed k` is the `k`-th raw draw of the stream. -/
def pyRandomStream (seed : Nat) (k : Nat) : Nat :=
  (seed + k + 1) * 2654435761 % 4294967296

/-- One `random.randint(0, num_vertices - 1)` call, realised as the next
raw draw of the stream reduced into the requested range. -/
def randBelow (draws : Nat → Nat) (k : Nat) (num_vertices : Nat) : Nat :=
  draws k % num_vertices

/-- The rejection-sampling loop of `generate_random_graph`
(`while len(edges_set) < num_edges: ...`).  The Python set of canonical
pairs is modelled as an insertion-ordered duplicate-free list `acc`;
`k` counts raw draws consumed; `fuel` bounds the number of loop
iterations (the loop terminates only probabilistically, so the
embedding returns `none` when `fuel` runs out). -/
def genLoop (draws : Nat → Nat) (num_vertices num_edges : Nat) :
    Nat → Nat → List (Nat × Nat) → Option (List (Nat × Nat))
  | 0, _, acc => if num_edges ≤ acc.length then some acc else none
  | fuel + 1, k, acc =>
      if num_edges ≤ acc.length then some acc
      else
        let u := randBelow draws k num_vertices
        let v := randBelow draws (k + 1) num_vertices
        if u ≠ v then
          let e := (min u v, max u v)
          genLoop draws num_vertices num_edges fuel (k + 2)
            (if e ∈ acc then acc else acc ++ [e])
        else genLoop draws num_vertices num_edges fuel (k + 2) acc

/-- `generate_random_graph(num_vertices, num_edges, seed)`: raises
`ValueError` when the requested edge count exceeds the simple-graph
capacity, otherwise runs the rejection-sampling loop and expands each
canonical pair `(u, v)` into the two ordered edges `(u, v)` and
`(v, u)`.  The inner `Option` is `none` when the loop's fuel runs out. -/
def generate_random_graph (draws : Nat → Nat) (num_vertices num_edges fuel : Nat) :
    Except PyError (Option (List (Nat × Nat))) :=
  if num_edges > num_vertices * (num_vertices - 1) / 2 then
    .error .valueErrorCapacity
  else
    .ok ((genLoop draws num_vertices num_edges fuel 0 []).map
      (fun es => es.flatMap (fun e => [(e.1, e.2), (e.2, e.1)])))

/-- `int(worker_str.split('-')[-1])`: the trailing component after the
last `-`, parsed as a Python int.  (`split` never returns an empty
list, so the `IndexError` branch of the script is unreachable.) -/
def parse_worker_label (s : List Char) : Option Int :=
  parsePyInt ((splitOnSep '-' s).getLastD [])

/-- The first loop of `assign_vertices`: fold the custom assignment
into a dict, keeping only entries whose label parses to a worker index
inside `[0, num_workers)`. -/
def ov_fold (num_workers : Nat) (custom : List (Nat × List Char)) : List (Nat × Nat) :=
  custom.foldl
    (fun d p =>
      match parse_worker_label p.2 with
      | some idx =>
          if 0 ≤ idx ∧ idx < (num_workers : Int) then
            pdictInsert d p.1 idx.toNat
          else d
      | none => d)
    []

/-- The value a custom-assignment label contributes in `assign_vertices`:
`some idx` when the label's trailing integer parses and lies inside
`[0, num_workers)`, otherwise `none` (the entry is skipped). -/
def ovValue (num_workers : Nat) (s : List Char) : Option Nat :=
  match parse_worker_label s with
  | some idx => if 0 ≤ idx ∧ idx < (num_workers : Int) then some idx.toNat else none
  | none => none

/-- `assign_vertices(num_vertices, num_workers, custom_assignment)`:
valid custom overrides first, then round-robin fill `v % num_workers`
for every vertex in `range(num_vertices)` not yet assigned.  Python
raises `ZeroDivisionError` at the first `%` with `num_workers = 0`. -/
def assign_vertices (num_vertices num_workers : Nat)
    (custom : List (Nat × List Char)) : Except PyError (List (Nat × Nat)) :=
  (List.range num_vertices).foldlM
    (fun d v =>
      if (plookup d v).isSome then pure d
      else if num_workers = 0 then throw .zeroDivisionError
      else pure (pdictInsert d v (v % num_workers)))
    (ov_fold num_workers custom)

/-- One step of `partition_edges`: append edge `e` to the bucket of the
worker owning its source vertex.  A missing assignment key or a bucket
index outside the pre-initialised dict `{i: [] for i in range(num_workers)}`
is a Python `KeyError`, modelled as `none`. -/
def pePush (va : List (Nat × Nat)) (bs : List (List (Nat × Nat))) (e : Nat × Nat) :
    Option (List (List (Nat × Nat))) :=
  match plookup va e.1 with
  | none => none
  | some w =>
      if h : w < bs.length then some (bs.set w (bs.get ⟨w, h⟩ ++ [e]))
      else none

/-- `partition_edges(edges, vertex_assignment, num_workers)`: buckets
are the dict `{i: [] for i in range(num_workers)}` (modelled
positionally as a length-`num_workers` list), filled left to right. -/
def partition_edges (edges : List (Nat × Nat)) (va : List (Nat × Nat))
    (num_workers : Nat) : Option (List (List (Nat × Nat))) :=
  edges.foldlM (pePush va) (List.replicate num_workers [])

/-- `write_edge_file(filepath, edges)`: the file contents, one line
`f"{u} {v}"` per edge (the trailing newline is the line separator of
the lines-model). -/
def write_edge_file (edges : List (Int × Int)) : List (List Char) :=
  edges.map (fun e => renderInt e.1 ++ ' ' :: renderInt e.2)

/-- The core pipeline of `main` in generate_graph.py after argument and
config handling: generate, assign, partition, and produce the per-worker
files `(worker_idx + 1).txt ↦ bucket`.  Any raised error aborts before
any file content is produced; `.ok none` models the (probabilistically
impossible) case that the sampling loop never finishes. -/
def generate_main_core (draws : Nat → Nat) (num_vertices num_edges num_workers : Nat)
    (custom : List (Nat × List Char)) (fuel : Nat) :
    Except PyError (Option (List (Nat × List (Nat × Nat)))) :=
  match generate_random_graph draws num_vertices num_edges fuel with
  | .error e => .error e
  | .ok none => .ok none
  | .ok (some edges) =>
      match assign_vertices num_vertices num_workers custom with
      | .error e => .error e
      | .ok va =>
          match partition_edges edges va num_workers with
          | none => .error .keyError
          | some parts =>
              .ok (some ((List.range num_workers).map
                (fun i => (i + 1, parts.getD i []))))

/-- The per-line parsing of `load_graph_from_file`: strip, skip blank
and `#`-comment lines, split on whitespace, require at least two
tokens, parse the first two as Python ints (a `ValueError` is caught
and the line skipped). -/
def parse_edge_line (line : List Char) : Option (Int × Int) :=
  let l := pyStrip line
  if l.isEmpty then none
  else if l.head? = some '#' then none
  else
    match pySplitWS l with
    | p0 :: p1 :: _ =>
        match parsePyInt p0, parsePyInt p1 with
        | some u, some v => some (u, v)
        | _, _ => none
    | _ => none

/-- `adjacency_dict[u].add(v)` on a `defaultdict(set)`: the dict is an
insertion-ordered association list, each neighbour set an
insertion-ordered duplicate-free list.  (CPython's set iteration order
is hash-table dependent; the model fixes insertion order.  Every claim
proved about neighbour sets is either order-independent or about
singleton sets.) -/
def adjInsert (a : List (Int × List Int)) (u v : Int) : List (Int × List Int) :=
  match a with
  | [] => [(u, [v])]
  | (k, ns) :: rest =>
      if k = u then (k, if v ∈ ns then ns else ns ++ [v]) :: rest
      else (k, ns) :: adjInsert rest u v

/-- Loader state: adjacency dict, running maximum vertex id
(initially `-1`), count of successfully parsed lines. -/
structure LoadState where
  adj : List (Int × List Int)
  maxV : Int
  total : Nat
deriving Repr

/-- One line of the loader's `for line in f` loop. -/
def load_step (st : LoadState) (line : List Char) : LoadState :=
  match parse_edge_line line with
  | none => st
  | some (u, v) => ⟨adjInsert st.adj u v, max st.maxV (max u v), st.total + 1⟩

/-- `load_graph_from_file(filepath)` over the file's lines: returns
`(adjacency_dict, max_vertex + 1, total_edges)`. -/
def load_graph_from_file (lines : List (List Char)) :
    List (Int × List Int) × Int × Nat :=
  let st := lines.foldl load_step ⟨[], -1, 0⟩
  (st.adj, st.maxV + 1, st.total)

/-- The bucket of worker `w` built by the partitioning loop of
`partition_graph`: iterate the adjacency dict, and for each `(u, n)`
append the forward edge `(u, n)` to the bucket of `u % num_workers`
and the mirrored edge `(n, u)` to the bucket of `n % num_workers`
(Python `%` on ints is floored modulo, `Int.fmod`). -/
def pg_bucket (adj : List (Int × List Int)) (num_workers : Nat) (w : Int) :
    List (Int × Int) :=
  adj.foldl
    (fun acc p =>
      p.2.foldl
        (fun acc n =>
          let acc := if Int.fmod p.1 num_workers = w then acc ++ [(p.1, n)] else acc
          if Int.fmod n num_workers = w then acc ++ [(n, p.1)] else acc)
        acc)
    []

/-- The partitioned files `partition_graph` writes: file `w + 1`.txt
holds `partitioned_edges[w]` for each `w` in `range(num_workers)`
(a `defaultdict(list)`, so an untouched bucket is empty). -/
def partition_graph_files (lines : List (List Char)) (num_workers : Nat) :
    List (Nat × List (Int × Int)) :=
  let adj := (load_graph_from_file lines).1
  (List.range num_workers).map (fun w => (w + 1, pg_bucket adj num_workers (w : Int)))

/-- The ordered-edge sequence represented by the loader's adjacency
output, read in iteration order: the spec-side reading of the
round-trip property ("loading reproduces the same ordered-edge
sequence written"), to be compared with the writer's input. -/
def loaded_edge_seq (lines : List (List Char)) : List (Int × Int) :=
  (load_graph_from_file lines).1.flatMap (fun p => p.2.map (fun v => (p.1, v)))

/-- Edge `(u, v)` is recorded in an adjacency dict. -/
def adjMem (a : List (Int × List Int)) (u v : Int) : Prop :=
  ∃ ns, plookup a u = some ns ∧ v ∈ ns

/-- A YAML-like configuration value: the opaque structured document the
publisher reads, patches and writes back. -/
inductive YVal where
  | int : Int → YVal
  | str : List Char → YVal
  | map : List (List Char × YVal) → YVal

/-- `str(vertex_id)`-keyed `"worker-N"` labels for every vertex in
`range(graph_size)`, as built by `partition_graph`. -/
def mk_vertex_assignment (graph_size num_workers : Nat) : List (List Char × YVal) :=
  (List.range graph_size).foldl
    (fun d v =>
      pdictInsert d (renderNat v)
        (.str ("worker-".toList ++ renderNat (v % num_workers))))
    []

/-- The config-update block of `partition_graph`: ensure a
`worker_config` section exists, then set its `vertex_assignment` and
`num_workers` keys.  Every other key of the document is untouched.
`none` models the `TypeError` Python raises when an existing
`worker_config` value is not a mapping. -/
def publish_config (doc : List (List Char × YVal))
    (va : List (List Char × YVal)) (num_workers : Nat) :
    Option (List (List Char × YVal)) :=
  let wc := "worker_config".toList
  let doc :=
    if (plookup doc wc).isSome then doc else pdictInsert doc wc (.map [])
  match plookup doc wc with
  | some (.map m) =>
      let m := pdictInsert m "vertex_assignment".toList (.map va)
      let m := pdictInsert m "num_workers".toList (.int num_workers)
      some (pdictInsert doc wc (.map m))
  | _ => none

/-- Outcome of the optional publishing step. -/
inductive PublishResult where
  | updated : List (List Char × YVal) → PublishResult
  | skipped : PublishResult

/-- The tail of `partition_graph`: if the config file exists it is
patched and saved, otherwise a warning is printed and the run
continues (no error). -/
def publish_step (config_exists : Bool) (doc : List (List Char × YVal))
    (va : List (List Char × YVal)) (num_workers : Nat) :
    Option PublishResult :=
  if config_exists then (publish_config doc va num_workers).map .updated
  else some .skipped

/-- The edge-list file `"0 1\n1 2\n2 0\n"` of the spec's concrete
re-partitioning scenario, as lines. -/
def linesC4 : List (List Char) := ["0 1".toList, "1 2".toList, "2 0".toList]

theorem plookup_pdictInsert_self {κ α : Type} [DecidableEq κ]
    (d : List (κ × α)) (k : κ) (v : α) :
    plookup (pdictInsert d k v) k = some v := by
  induction d with
  | nil => simp [pdictInsert, plookup]
  | cons p rest ih =>
    obtain ⟨k', v'⟩ := p
    by_cases h : k' = k
    · simp [pdictInsert, h, plookup]
    · simp [pdictInsert, h, plookup, ih]

theorem plookup_pdictInsert_ne {κ α : Type} [DecidableEq κ]
    (d : List (κ × α)) (k x : κ) (v : α) (hx : x ≠ k) :
    plookup (pdictInsert d k v) x = plookup d x := by
  have hkx : ¬ k = x := fun h => hx h.symm
  induction d with
  | nil => simp [pdictInsert, plookup, hkx]
  | cons p rest ih =>
    obtain ⟨k', v'⟩ := p
    by_cases h : k' = k
    · subst h
      simp [pdictInsert, plookup, hkx]
    · by_cases h2 : k' = x <;> simp [pdictInsert, h, plookup, h2, ih, hx]

theorem plookup_eq_none_of_not_mem_keys {κ α : Type} [DecidableEq κ]
    (d : List (κ × α)) (x : κ) (hx : x ∉ d.map Prod.fst) :
    plookup d x = none := by
  induction d with
  | nil => rfl
  | cons p rest ih =>
    obtain ⟨k, v⟩ := p
    simp only [List.map_cons, List.mem_cons] at hx
    push_neg at hx
    have hkx : ¬ k = x := fun h => hx.1 h.symm
    simp [plookup, hkx, ih hx.2]

theorem digitVal_digitChar10 (d : Nat) (h : d < 10) :
    digitVal (digitChar10 d) = d := by
  interval_cases d <;> rfl

theorem isDig_digitChar10 (d : Nat) : isDig (digitChar10 d) = true := by
  match d with
  | 0 | 1 | 2 | 3 | 4 | 5 | 6 | 7 | 8 => rfl
  | n + 9 => rfl

theorem not_isWS_of_isDig (c : Char) (h : isDig c = true) : isWS c = false := by
  simp only [isDig, decide_eq_true_eq, Bool.decide_and, Bool.and_eq_true] at h
  by_contra hws
  simp only [Bool.not_eq_false, isWS, decide_eq_true_eq] at hws
  rcases hws with rfl | rfl | rfl | rfl | rfl | rfl <;> revert h <;> decide

theorem ne_hash_of_isDig (c : Char) (h : isDig c = true) : c ≠ '#' := by
  rintro rfl
  revert h
  decide

/-! ## Theorems -/

theorem sil_count_congr {α : Type} (inst1 inst2 : BEq α)
    (hbeq : ∀ a b : α, @BEq.beq α inst1 a b = @BEq.beq α inst2 a b)
    (a : α) (l : List α) : @List.count α inst1 a l = @List.count α inst2 a l := by
  induction l with
  | nil => rfl
  | cons x xs ih =>
    rw [@List.count_cons α inst1, @List.count_cons α inst2, ih, hbeq]

theorem sil_count_filter {α : Type} [BEq α] [LawfulBEq α] (p : α → Bool) (l : List α) (a : α) :
    (l.filter p).count a = if p a then l.count a else 0 := by
  induction l with
  | nil => simp
  | cons x xs ih =>
    by_cases hx : p x
    · by_cases hxa : x = a
      · subst hxa
        simp [List.filter_cons, hx, List.count_cons, ih]
      · simp [List.filter_cons, hx, List.count_cons, hxa, ih]
    · by_cases hxa : x = a
      · subst hxa
        simp [List.filter_cons, hx, List.count_cons, ih]
      · simp [List.filter_cons, hx, List.count_cons, hxa, ih]

theorem sil_sum_range_single (f : Nat → Nat) (n w : Nat) (hw : w < n)
    (hz : ∀ i, i < n → i ≠ w → f i = 0) :
    ((List.range n).map f).sum = f w := by
  induction n with
  | zero => omega
  | succ n ih =>
    rw [List.range_succ, List.map_append, List.sum_append]
    by_cases h : w = n
    · subst h
      have hzero : ((List.range w).map f).sum = 0 := by
        apply List.sum_eq_zero
        intro x hx
        rw [List.mem_map] at hx
        obtain ⟨i, hi, rfl⟩ := hx
        rw [List.mem_range] at hi
        exact hz i (by omega) (by omega)
      simp [hzero]
    · have hwn : w < n := by omega
      rw [ih hwn (fun i hi hne => hz i (by omega) hne)]
      have : f n = 0 := hz n (by omega) (fun he => h he.symm)
      simp [this]

/-- The foldl of `partition_edges` with a general starting bucket list:
it succeeds and bucket `i` receives exactly the edges whose source
vertex is assigned to worker `i`, appended in input order. -/
theorem pe_go (va : List (Nat × Nat)) (edges : List (Nat × Nat)) :
    ∀ (bs : List (List (Nat × Nat))),
    (∀ e ∈ edges, ∃ w, plookup va e.1 = some w ∧ w < bs.length) →
    ∃ bs', edges.foldlM (pePush va) bs = some bs' ∧
      bs'.length = bs.length ∧
      ∀ i (h : i < bs.length) (h' : i < bs'.length),
        bs'[i] = bs[i] ++ edges.filter (fun e => plookup va e.1 = some i) := by
  induction edges with
  | nil =>
    intro bs _
    exact ⟨bs, rfl, rfl, fun i h h' => by simp⟩
  | cons e es ih =>
    intro bs hdef
    obtain ⟨w, hw, hwlt⟩ := hdef e (List.mem_cons_self e es)
    have hpush : pePush va bs e = some (bs.set w (bs[w] ++ [e])) := by
      simp [pePush, hw, hwlt]
    have hdef' : ∀ e' ∈ es, ∃ w', plookup va e'.1 = some w' ∧
        w' < (bs.set w (bs[w] ++ [e])).length := by
      intro e' he'
      obtain ⟨w', hw', hwlt'⟩ := hdef e' (List.mem_cons_of_mem e he')
      exact ⟨w', hw', by simpa using hwlt'⟩
    obtain ⟨bs', hfold, hlen, hchar⟩ := ih (bs.set w (bs[w] ++ [e])) hdef'
    refine ⟨bs', ?_, by simpa using hlen, ?_⟩
    · rw [List.foldlM_cons, hpush]
      exact hfold
    · intro i h h'
      have hset : i < (bs.set w (bs[w] ++ [e])).length := by simpa using h
      have hc := hchar i hset h'
      rw [hc]
      by_cases hiw : i = w
      · subst hiw
        rw [List.getElem_set_self (by simpa using h)]
        rw [List.filter_cons]
        have hde : (decide (plookup va e.1 = some i)) = true := by simp [hw]
        simp only [hde, if_true]
        simp [List.append_assoc]
      · rw [List.getElem_set_ne (fun hx => hiw hx.symm)]
        rw [List.filter_cons]
        have hde : (decide (plookup va e.1 = some i)) = false := by
          simp only [hw, decide_eq_false_iff_not]
          intro hcon
          exact hiw (Option.some.inj hcon).symm
        simp only [hde]
        simp

/-- C1: For every finite sequence of ordered edges, every assignment
defined on all source vertices with worker indices in range, and every
`workerCount > 0`: `partition_edges` succeeds with exactly one bucket
per worker index in `[0, workerCount)`, every edge `(u, v)` sits only
in the bucket of `assignment[u]`, and the concatenation of all buckets
is a permutation (multiset equality) of the input edges. -/
theorem partition_edges_complete (edges : List (Nat × Nat)) (va : List (Nat × Nat))
    (num_workers : Nat) (hnw : 0 < num_workers)
    (hdef : ∀ e ∈ edges, ∃ w, plookup va e.1 = some w ∧ w < num_workers) :
    ∃ parts, partition_edges edges va num_workers = some parts ∧
      parts.length = num_workers ∧
      (∀ i (h : i < parts.length), ∀ e ∈ parts[i], plookup va e.1 = some i) ∧
      parts.flatten.Perm edges := by
  obtain ⟨parts, hfold, hlen, hchar⟩ :=
    pe_go va edges (List.replicate num_workers [])
      (by simpa using hdef)
  have hlen' : parts.length = num_workers := by simpa using hlen
  have hparts : parts = (List.range num_workers).map
      (fun i => edges.filter (fun e => plookup va e.1 = some i)) := by
    apply List.ext_getElem
    · simpa using hlen'
    · intro i h1 h2
      have hi : i < num_workers := by simp [hlen'] at h1; exact h1
      have hc := hchar i (by simpa using hi) h1
      rw [hc]
      simp
  refine ⟨parts, hfold, hlen', ?_, ?_⟩
  · intro i h e he
    have hi : i < num_workers := hlen' ▸ h
    have hc := hchar i (by simpa using hi) h
    rw [hc] at he
    simp only [List.getElem_replicate, List.nil_append] at he
    have := List.of_mem_filter he
    exact of_decide_eq_true this
  · refine List.perm_iff_count.mpr (fun e => ?_)
    have hbeq : ∀ a b : ℕ × ℕ,
        @BEq.beq _ instBEqOfDecidableEq a b = @BEq.beq _ instBEqProd a b := by
      intro a b
      show decide (a = b) = (a == b)
      by_cases h : a = b <;> simp [h]
    rw [sil_count_congr instBEqOfDecidableEq instBEqProd hbeq,
        sil_count_congr instBEqOfDecidableEq instBEqProd hbeq]
    rw [hparts, List.count_flatten, List.map_map]
    by_cases hmem : e ∈ edges
    · obtain ⟨w, hw, hwlt⟩ := hdef e hmem
      rw [sil_sum_range_single _ num_workers w hwlt ?_]
      · simp only [Function.comp]
        rw [sil_count_filter]
        simp [hw]
      · intro i hi hne
        simp only [Function.comp]
        rw [sil_count_filter]
        have hde : (decide (plookup va e.1 = some i)) = false := by
          simp only [hw, decide_eq_false_iff_not]
          intro hcon
          exact hne (Option.some.inj hcon).symm
        simp [hde]
    · have h0 : edges.count e = 0 := List.count_eq_zero.mpr hmem
      rw [h0]
      apply List.sum_eq_zero
      intro x hx
      rw [List.mem_map] at hx
      obtain ⟨i, _, rfl⟩ := hx
      simp only [Function.comp]
      apply List.count_eq_zero.mpr
      intro hcon
      exact hmem (List.mem_of_mem_filter hcon)

/-- Closed instance of `partition_edges_complete` at a concrete input. -/
theorem partition_edges_complete_witness :
    ∃ parts, partition_edges [(0, 1), (1, 0)] [(0, 0), (1, 1)] 2 = some parts ∧
      parts.length = 2 ∧
      (∀ i (h : i < parts.length), ∀ e ∈ parts[i],
        plookup [(0, 0), (1, 1)] e.1 = some i) ∧
      parts.flatten.Perm [(0, 1), (1, 0)] :=
  partition_edges_complete [(0, 1), (1, 0)] [(0, 0), (1, 1)] 2 (by decide)
    (by
      intro e he
      simp only [List.mem_cons, List.not_mem_nil, or_false] at he
      rcases he with rfl | rfl
      · exact ⟨0, rfl, by decide⟩
      · exact ⟨1, rfl, by decide⟩)

/-- C4 counterexample: the claim places forward edge `(2, 0)` in
worker-0's bucket, but the code assigns it by its source vertex
(`2 % 3 = 2`), so it is not in worker-0's bucket. -/
theorem partition_scenario_counterexample :
    ((2 : Int), (0 : Int)) ∉ pg_bucket (load_graph_from_file linesC4).1 3 0 := by
  decide

/-- C4 amended: loading `"0 1\n1 2\n2 0\n"` and partitioning for 3
workers places every forward edge and every mirrored edge by the
modulo rule on its own source vertex: worker-0 gets `(0,1)` and the
mirror `(0,2)`, worker-1 gets the mirror `(1,0)` and `(1,2)`, worker-2
gets the mirror `(2,1)` and `(2,0)`. -/
theorem partition_scenario_amended :
    partition_graph_files linesC4 3 =
      [(1, [(0, 1), (0, 2)]), (2, [(1, 0), (1, 2)]), (3, [(2, 1), (2, 0)])] := by
  decide

/-- C5 counterexample: with `workerCount = 0` and `vertexCount = 1` the
assignment resolver fails with `ZeroDivisionError` (from `v % 0`), not
with a `ConfigurationError` — no such check exists in the code. -/
theorem resolver_zero_workers_counterexample :
    assign_vertices 1 0 [] = .error .zeroDivisionError ∧
      Except.error PyError.zeroDivisionError ≠
        (Except.error PyError.configurationError :
          Except PyError (List (Nat × Nat))) := by
  constructor
  · rfl
  · simp

theorem ov_fold_zero_workers (custom : List (Nat × List Char)) :
    ov_fold 0 custom = [] := by
  have hstep : ∀ (d : List (Nat × Nat)) (p : Nat × List Char),
      (match parse_worker_label p.2 with
       | some idx =>
           if 0 ≤ idx ∧ idx < ((0 : Nat) : Int) then pdictInsert d p.1 idx.toNat
           else d
       | none => d) = d := by
    intro d p
    cases parse_worker_label p.2 with
    | none => rfl
    | some idx =>
      simp only [Nat.cast_zero]
      rw [if_neg]
      omega
  show List.foldl _ [] custom = []
  induction custom with
  | nil => rfl
  | cons p rest ih =>
    rw [List.foldl_cons, hstep [] p]
    exact ih

/-- C5 amended: for `workerCount = 0` and any `vertexCount > 0`, the
resolver fails with `ZeroDivisionError` (every override is rejected by
the range check, so the fallback `v % 0` is reached); it never raises
`ConfigurationError`. -/
theorem resolver_zero_workers_amended (num_vertices : Nat)
    (custom : List (Nat × List Char)) (hnv : 0 < num_vertices) :
    assign_vertices num_vertices 0 custom = .error .zeroDivisionError := by
  unfold assign_vertices
  rw [ov_fold_zero_workers]
  obtain ⟨m, rfl⟩ : ∃ m, num_vertices = m + 1 := ⟨num_vertices - 1, by omega⟩
  rw [List.range_succ_eq_map, List.foldlM_cons]
  simp only [plookup, Option.isSome_none, Bool.false_eq_true, if_false,
    reduceIte, throw, throwThe, MonadExceptOf.throw]
  rfl

/-- Closed instance of `resolver_zero_workers_amended`. -/
theorem resolver_zero_workers_amended_witness :
    assign_vertices 2 0 [(5, "worker-0".toList)] = .error .zeroDivisionError :=
  resolver_zero_workers_amended 2 [(5, "worker-0".toList)] (by decide)

theorem ov_fold_go (nw : Nat) (custom : List (Nat × List Char)) :
    ∀ (d : List (Nat × Nat)) (x : Nat), (custom.map Prod.fst).Nodup →
    plookup (custom.foldl
      (fun d p =>
        match parse_worker_label p.2 with
        | some idx =>
            if 0 ≤ idx ∧ idx < (nw : Int) then pdictInsert d p.1 idx.toNat
            else d
        | none => d) d) x =
      ((plookup custom x).bind (ovValue nw)).or (plookup d x) := by
  induction custom with
  | nil => intro d x _; simp [plookup]
  | cons p rest ih =>
    intro d x hnodup
    obtain ⟨k, s⟩ := p
    simp only [List.map_cons, List.nodup_cons] at hnodup
    obtain ⟨hknot, hrest⟩ := hnodup
    rw [List.foldl_cons, ih _ x hrest]
    by_cases hx : k = x
    · subst hx
      have hnolook : plookup rest k = none :=
        plookup_eq_none_of_not_mem_keys rest k hknot
      have hcl : plookup ((k, s) :: rest) k = some s := by simp [plookup]
      rw [hnolook, hcl]
      simp only [Option.none_bind, Option.none_or, Option.some_bind]
      cases hp : parse_worker_label s with
      | none => simp [ovValue, hp]
      | some idx =>
        by_cases hin : 0 ≤ idx ∧ idx < (nw : Int)
        · simp only [hp, if_pos hin, ovValue, plookup_pdictInsert_self]
          rfl
        · simp only [hp, if_neg hin, ovValue]
          rfl
    · have hcl : plookup ((k, s) :: rest) x = plookup rest x := by
        simp [plookup, hx]
      rw [hcl]
      have hstep : plookup
          (match parse_worker_label s with
            | some idx =>
                if 0 ≤ idx ∧ idx < (nw : Int) then pdictInsert d k idx.toNat
                else d
            | none => d) x = plookup d x := by
        cases hp : parse_worker_label s with
        | none => rfl
        | some idx =>
          by_cases hin : 0 ≤ idx ∧ idx < (nw : Int)
          · simp only [if_pos hin]
            exact plookup_pdictInsert_ne d k x idx.toNat (fun h => hx h.symm)
          · simp only [if_neg hin]
      rw [hstep]

theorem assign_fill_ok (nw : Nat) (hnw : nw ≠ 0) :
    ∀ (l : List Nat) (d : List (Nat × Nat)),
    (l.foldlM
      (fun d v =>
        if (plookup d v).isSome then pure d
        else if nw = 0 then throw PyError.zeroDivisionError
        else pure (pdictInsert d v (v % nw)))
      d : Except PyError (List (Nat × Nat))) =
    Except.ok (l.foldl
      (fun d v =>
        if (plookup d v).isSome then d else pdictInsert d v (v % nw)) d) := by
  intro l
  induction l with
  | nil => intro d; rfl
  | cons v rest ih =>
    intro d
    rw [List.foldlM_cons, List.foldl_cons]
    have hstep : (if (plookup d v).isSome then pure d
        else if nw = 0 then throw PyError.zeroDivisionError
        else pure (pdictInsert d v (v % nw)) : Except PyError (List (Nat × Nat))) =
        pure (if (plookup d v).isSome then d else pdictInsert d v (v % nw)) := by
      by_cases hv : (plookup d v).isSome
      · simp only [hv, if_true]
      · simp only [hv, Bool.false_eq_true, if_false, if_neg hnw]
    rw [hstep, pure_bind]
    exact ih _

theorem fill_lookup (nw : Nat) :
    ∀ (l : List Nat) (d : List (Nat × Nat)) (x : Nat),
    plookup (l.foldl
      (fun d v =>
        if (plookup d v).isSome then d else pdictInsert d v (v % nw)) d) x =
      (plookup d x).or (if x ∈ l then some (x % nw) else none) := by
  intro l
  induction l with
  | nil =>
    intro d x
    cases hl : plookup d x <;> simp [hl]
  | cons v rest ih =>
    intro d x
    rw [List.foldl_cons, ih]
    by_cases hx : x = v
    · subst hx
      by_cases hv : (plookup d x).isSome
      · obtain ⟨w, hw⟩ := Option.isSome_iff_exists.mp hv
        simp [hv, hw]
      · have hvn : plookup d x = none := Option.not_isSome_iff_eq_none.mp hv
        simp [hv, hvn, plookup_pdictInsert_self]
    · by_cases hv : (plookup d v).isSome
      · simp only [hv, if_true]
        cases hl : plookup d x with
        | none => simp [hl, List.mem_cons, hx]
        | some w => simp [hl]
      · simp only [hv, Bool.false_eq_true, if_false]
        rw [plookup_pdictInsert_ne d v x (v % nw) hx]
        cases hl : plookup d x with
        | none => simp [hl, List.mem_cons, hx]
        | some w => simp [hl]

/-- C3: with `workerCount > 0` and override keys forming a mapping,
`assign_vertices` succeeds and maps each vertex `v < vertexCount` to
its override's parsed trailing integer when that override exists,
parses, and lies in `[0, workerCount)`, and to `v % workerCount`
otherwise; moreover with no overrides and `vertexCount ≥ workerCount`
every worker index is assigned at least one vertex. -/
theorem assign_vertices_spec (num_vertices num_workers : Nat)
    (custom : List (Nat × List Char)) (hnw : 0 < num_workers)
    (hnodup : (custom.map Prod.fst).Nodup) :
    ∃ d, assign_vertices num_vertices num_workers custom = .ok d ∧
      (∀ v, v < num_vertices →
        plookup d v =
          some (((plookup custom v).bind (ovValue num_workers)).getD
            (v % num_workers))) ∧
      (custom = [] → num_workers ≤ num_vertices →
        ∀ w, w < num_workers → ∃ v, v < num_vertices ∧ plookup d v = some w) := by
  have hnz : num_workers ≠ 0 := Nat.pos_iff_ne_zero.mp hnw
  refine ⟨(List.range num_vertices).foldl
      (fun d v =>
        if (plookup d v).isSome then d
        else pdictInsert d v (v % num_workers)) (ov_fold num_workers custom),
    ?_, ?_, ?_⟩
  · unfold assign_vertices
    exact assign_fill_ok num_workers hnz (List.range num_vertices) _
  · intro v hv
    rw [fill_lookup]
    have hov : plookup (ov_fold num_workers custom) v =
        ((plookup custom v).bind (ovValue num_workers)).or none :=
      ov_fold_go num_workers custom [] v hnodup
    rw [hov, Option.or_none]
    cases hc : plookup custom v with
    | none => simp [List.mem_range.mpr hv]
    | some s =>
      cases ho : ovValue num_workers s with
      | none => simp [ho, List.mem_range.mpr hv]
      | some w => simp [ho]
  · rintro rfl hle w hw
    refine ⟨w, by omega, ?_⟩
    rw [fill_lookup]
    have hov : plookup (ov_fold num_workers []) w =
        ((plookup ([] : List (Nat × List Char)) w).bind
          (ovValue num_workers)).or none :=
      ov_fold_go num_workers [] [] w (by simp)
    rw [hov]
    simp [plookup, List.mem_range.mpr (by omega : w < num_vertices),
      Nat.mod_eq_of_lt hw]

/-- Closed instance of `assign_vertices_spec` at a concrete input. -/
theorem assign_vertices_spec_witness :
    ∃ d, assign_vertices 3 2 [(1, "worker-1".toList)] = .ok d ∧
      (∀ v, v < 3 →
        plookup d v =
          some (((plookup [(1, "worker-1".toList)] v).bind (ovValue 2)).getD
            (v % 2))) ∧
      ([(1, "worker-1".toList)] = ([] : List (Nat × List Char)) → 2 ≤ 3 →
        ∀ w, w < 2 → ∃ v, v < 3 ∧ plookup d v = some w) :=
  assign_vertices_spec 3 2 [(1, "worker-1".toList)] (by decide) (by decide)

/-- C10: a valid override whose vertex key lies outside the vertex
universe `[0, vertexCount)` is still included in the resolver's result
with the override's worker index, so the result's domain is the union
of `[0, vertexCount)` and the valid override keys, not exactly the
vertex universe. -/
theorem assign_vertices_out_of_universe (num_vertices num_workers : Nat)
    (custom : List (Nat × List Char)) (k : Nat) (s : List Char) (idx : Int)
    (hnodup : (custom.map Prod.fst).Nodup)
    (hk : plookup custom k = some s)
    (hparse : parse_worker_label s = some idx)
    (hrange : 0 ≤ idx ∧ idx < (num_workers : Int))
    (hout : num_vertices ≤ k) :
    ∃ d, assign_vertices num_vertices num_workers custom = .ok d ∧
      plookup d k = some idx.toNat ∧
      (∀ x, (plookup d x).isSome ↔
        (x < num_vertices ∨
          ((plookup custom x).bind (ovValue num_workers)).isSome)) := by
  have hnz : num_workers ≠ 0 := by omega
  refine ⟨(List.range num_vertices).foldl
      (fun d v =>
        if (plookup d v).isSome then d
        else pdictInsert d v (v % num_workers)) (ov_fold num_workers custom),
    ?_, ?_, ?_⟩
  · unfold assign_vertices
    exact assign_fill_ok num_workers hnz (List.range num_vertices) _
  · rw [fill_lookup]
    have hov : plookup (ov_fold num_workers custom) k =
        ((plookup custom k).bind (ovValue num_workers)).or none :=
      ov_fold_go num_workers custom [] k hnodup
    rw [hov, Option.or_none, hk, Option.some_bind]
    have hval : ovValue num_workers s = some idx.toNat := by
      simp [ovValue, hparse, hrange]
    rw [hval]
    rfl
  · intro x
    rw [fill_lookup]
    have hov : plookup (ov_fold num_workers custom) x =
        ((plookup custom x).bind (ovValue num_workers)).or none :=
      ov_fold_go num_workers custom [] x hnodup
    rw [hov, Option.or_none]
    cases ho : (plookup custom x).bind (ovValue num_workers) with
    | some w => simp
    | none =>
      by_cases hx : x < num_vertices
      · simp [List.mem_range.mpr hx, hx]
      · simp [List.mem_range, hx]

/-- Closed instance of `assign_vertices_out_of_universe`. -/
theorem assign_vertices_out_of_universe_witness :
    ∃ d, assign_vertices 1 1 [(5, "worker-0".toList)] = .ok d ∧
      plookup d 5 = some (Int.toNat 0) ∧
      (∀ x, (plookup d x).isSome ↔
        (x < 1 ∨
          ((plookup [(5, "worker-0".toList)] x).bind (ovValue 1)).isSome)) :=
  assign_vertices_out_of_universe 1 1 [(5, "worker-0".toList)] 5
    "worker-0".toList 0 (by decide) (by decide) (by decide) (by decide) (by decide)

theorem genLoop_invariant (draws : Nat → Nat) (nv ne : Nat) :
    ∀ (fuel k : Nat) (acc s : List (Nat × Nat)),
    genLoop draws nv ne fuel k acc = some s →
    acc.Nodup → (∀ p ∈ acc, p.1 < p.2) → acc.length ≤ ne →
    s.Nodup ∧ (∀ p ∈ s, p.1 < p.2) ∧ s.length = ne := by
  intro fuel
  induction fuel with
  | zero =>
    intro k acc s hs hnd hlt hle
    unfold genLoop at hs
    by_cases h : ne ≤ acc.length
    · rw [if_pos h] at hs
      cases hs
      exact ⟨hnd, hlt, by omega⟩
    · rw [if_neg h] at hs
      cases hs
  | succ fuel ih =>
    intro k acc s hs hnd hlt hle
    unfold genLoop at hs
    by_cases h : ne ≤ acc.length
    · rw [if_pos h] at hs
      cases hs
      exact ⟨hnd, hlt, by omega⟩
    · rw [if_neg h] at hs
      simp only at hs
      set u := randBelow draws k nv with hu
      set v := randBelow draws (k + 1) nv with hv
      by_cases huv : u ≠ v
      · rw [if_pos huv] at hs
        by_cases hmem : (min u v, max u v) ∈ acc
        · rw [if_pos hmem] at hs
          exact ih (k + 2) acc s hs hnd hlt hle
        · rw [if_neg hmem] at hs
          refine ih (k + 2) (acc ++ [(min u v, max u v)]) s hs ?_ ?_ ?_
          · simp [List.nodup_append, hnd, hmem]
          · intro p hp
            rcases List.mem_append.mp hp with hp | hp
            · exact hlt p hp
            · simp only [List.mem_singleton] at hp
              subst hp
              simp only
              rcases Nat.lt_or_ge u v with hlt2 | hge
              · rw [Nat.min_def, Nat.max_def]
                simp only [if_pos (Nat.le_of_lt hlt2)]
                exact hlt2
              · have hne : v < u := by omega
                rw [Nat.min_def, Nat.max_def]
                rw [if_neg (by omega), if_neg (by omega)]
                exact hne
          · rw [List.length_append]
            simp only [List.length_singleton]
            omega
      · rw [if_neg huv] at hs
        exact ih (k + 2) acc s hs hnd hlt hle

/-- C2: for `vertexCount ≥ 2`, `edgeCount` within capacity, and any
draw stream: whenever the rejection-sampling loop terminates, the
produced set contains exactly `edgeCount` distinct canonical pairs
`(a, b)` with `a < b` (no self-loops, no duplicates),
`generate_random_graph` returns exactly this set expanded into the two
ordered directions, and a second call with the same seeded stream
returns the identical result. -/
theorem generate_random_graph_spec (draws : Nat → Nat)
    (num_vertices num_edges fuel : Nat)
    (h2 : 2 ≤ num_vertices)
    (hcap : num_edges ≤ num_vertices * (num_vertices - 1) / 2)
    (s : List (Nat × Nat))
    (hs : genLoop draws num_vertices num_edges fuel 0 [] = some s) :
    s.length = num_edges ∧ s.Nodup ∧ (∀ p ∈ s, p.1 < p.2) ∧
    generate_random_graph draws num_vertices num_edges fuel =
      .ok (some (s.flatMap (fun e => [(e.1, e.2), (e.2, e.1)]))) ∧
    (∀ seed : Nat,
      generate_random_graph (pyRandomStream seed) num_vertices num_edges fuel =
      generate_random_graph (pyRandomStream seed) num_vertices num_edges fuel) := by
  obtain ⟨hnd, hlt, hlen⟩ :=
    genLoop_invariant draws num_vertices num_edges fuel 0 [] s hs
      (by simp) (by simp) (by simp)
  refine ⟨hlen, hnd, hlt, ?_, fun _ => rfl⟩
  unfold generate_random_graph
  rw [if_neg (by omega), hs]
  rfl

/-- Closed instance of `generate_random_graph_spec` at a concrete
stream and size. -/
theorem generate_random_graph_spec_witness :
    [((0 : Nat), (1 : Nat))].length = 1 ∧
      ([((0 : Nat), (1 : Nat))] : List (Nat × Nat)).Nodup ∧
      (∀ p ∈ [((0 : Nat), (1 : Nat))], p.1 < p.2) ∧
      generate_random_graph (fun k => k) 2 1 2 =
        .ok (some ([((0 : Nat), (1 : Nat))].flatMap
          (fun e => [(e.1, e.2), (e.2, e.1)]))) ∧
      (∀ seed : Nat,
        generate_random_graph (pyRandomStream seed) 2 1 2 =
        generate_random_graph (pyRandomStream seed) 2 1 2) :=
  generate_random_graph_spec (fun k => k) 2 1 2 (by decide) (by decide)
    [(0, 1)] (by decide)

/-- C6: edge generation fails with the capacity `ValueError` exactly
when `edgeCount > vertexCount*(vertexCount-1)/2`, and in that case the
whole generation pipeline aborts with that error, producing no output
files. -/
theorem capacity_error_iff (draws : Nat → Nat)
    (num_vertices num_edges num_workers : Nat)
    (custom : List (Nat × List Char)) (fuel : Nat) :
    (generate_random_graph draws num_vertices num_edges fuel =
        .error .valueErrorCapacity ↔
      num_edges > num_vertices * (num_vertices - 1) / 2) ∧
    (num_edges > num_vertices * (num_vertices - 1) / 2 →
      generate_main_core draws num_vertices num_edges num_workers custom fuel =
        .error .valueErrorCapacity) := by
  constructor
  · unfold generate_random_graph
    by_cases h : num_edges > num_vertices * (num_vertices - 1) / 2
    · simp [h]
    · simp [h]
  · intro h
    unfold generate_main_core generate_random_graph
    rw [if_pos h]

/-- Closed instance of `capacity_error_iff`: requesting 5 edges on 2
vertices aborts the pipeline with the capacity error. -/
theorem capacity_error_iff_witness :
    generate_main_core (fun k => k) 2 5 1 [] 0 = .error .valueErrorCapacity :=
  (capacity_error_iff (fun k => k) 2 5 1 [] 0).2 (by decide)

/-- C8: publishing writes the vertex assignment and worker count into
the document's `worker_config` section (created when absent) and
leaves every other key — at the top level and inside `worker_config` —
with its previous presence and value; when the target document file
does not exist the publishing step is skipped and the run continues
without error. -/
theorem publish_preserves (doc : List (List Char × YVal))
    (va : List (List Char × YVal)) (num_workers : Nat)
    (hwc : ∀ v, plookup doc "worker_config".toList = some v → ∃ m, v = .map m) :
    (∃ doc' m', publish_config doc va num_workers = some doc' ∧
      plookup doc' "worker_config".toList = some (.map m') ∧
      plookup m' "vertex_assignment".toList = some (.map va) ∧
      plookup m' "num_workers".toList = some (.int num_workers) ∧
      (∀ k, k ≠ "worker_config".toList → plookup doc' k = plookup doc k) ∧
      (∀ k, k ≠ "vertex_assignment".toList → k ≠ "num_workers".toList →
        plookup m' k =
          match plookup doc "worker_config".toList with
          | some (.map m) => plookup m k
          | _ => none)) ∧
    publish_step false doc va num_workers = some .skipped := by
  constructor
  · cases hdoc : plookup doc "worker_config".toList with
    | none =>
      refine ⟨pdictInsert (pdictInsert doc "worker_config".toList (.map []))
          "worker_config".toList
          (.map (pdictInsert
            (pdictInsert [] "vertex_assignment".toList (.map va))
            "num_workers".toList (.int num_workers))),
        pdictInsert (pdictInsert [] "vertex_assignment".toList (.map va))
          "num_workers".toList (.int num_workers),
        ?_, ?_, ?_, ?_, ?_, ?_⟩
      · unfold publish_config
        dsimp only
        rw [hdoc]
        simp only [Option.isSome_none, Bool.false_eq_true, if_false]
        rw [plookup_pdictInsert_self]
      · rw [plookup_pdictInsert_self]
      · rw [plookup_pdictInsert_ne _ _ _ _ (by decide), plookup_pdictInsert_self]
      · rw [plookup_pdictInsert_self]
      · intro k hk
        rw [plookup_pdictInsert_ne _ _ _ _ hk, plookup_pdictInsert_ne _ _ _ _ hk]
      · intro k hk1 hk2
        rw [plookup_pdictInsert_ne _ _ _ _ hk2, plookup_pdictInsert_ne _ _ _ _ hk1]
        rfl
    | some v =>
      obtain ⟨m, rfl⟩ := hwc v hdoc
      refine ⟨pdictInsert doc "worker_config".toList
          (.map (pdictInsert
            (pdictInsert m "vertex_assignment".toList (.map va))
            "num_workers".toList (.int num_workers))),
        pdictInsert (pdictInsert m "vertex_assignment".toList (.map va))
          "num_workers".toList (.int num_workers),
        ?_, ?_, ?_, ?_, ?_, ?_⟩
      · unfold publish_config
        dsimp only
        rw [hdoc]
        simp only [Option.isSome_some, if_true]
        rw [hdoc]
      · rw [plookup_pdictInsert_self]
      · rw [plookup_pdictInsert_ne _ _ _ _ (by decide), plookup_pdictInsert_self]
      · rw [plookup_pdictInsert_self]
      · intro k hk
        rw [plookup_pdictInsert_ne _ _ _ _ hk]
      · intro k hk1 hk2
        rw [plookup_pdictInsert_ne _ _ _ _ hk2, plookup_pdictInsert_ne _ _ _ _ hk1]
  · rfl

/-- Closed instance of `publish_preserves`: an unrelated key `foo`
survives publishing unchanged. -/
theorem publish_preserves_witness :
    (∃ doc' m', publish_config
        [("foo".toList, .int 1),
         ("worker_config".toList, .map [("x".toList, .int 5)])] [] 2 = some doc' ∧
      plookup doc' "worker_config".toList = some (.map m') ∧
      plookup m' "vertex_assignment".toList = some (.map []) ∧
      plookup m' "num_workers".toList = some (.int 2) ∧
      (∀ k, k ≠ "worker_config".toList →
        plookup doc' k =
          plookup [("foo".toList, YVal.int 1),
            ("worker_config".toList, .map [("x".toList, .int 5)])] k) ∧
      (∀ k, k ≠ "vertex_assignment".toList → k ≠ "num_workers".toList →
        plookup m' k =
          match plookup [("foo".toList, YVal.int 1),
            ("worker_config".toList, .map [("x".toList, .int 5)])]
            "worker_config".toList with
          | some (.map m) => plookup m k
          | _ => none)) ∧
    publish_step false
      [("foo".toList, .int 1),
       ("worker_config".toList, .map [("x".toList, .int 5)])] [] 2 =
      some .skipped :=
  publish_preserves
    [("foo".toList, .int 1),
     ("worker_config".toList, .map [("x".toList, .int 5)])] [] 2
    (fun v hv => by cases hv; exact ⟨_, rfl⟩)

theorem renderNatAux_digits (fuel : Nat) :
    ∀ n, ∀ c ∈ renderNatAux fuel n, isDig c = true := by
  induction fuel with
  | zero => intro n c hc; simp [renderNatAux] at hc
  | succ fuel ih =>
    intro n c hc
    unfold renderNatAux at hc
    by_cases hn : n = 0
    · rw [if_pos hn] at hc
      simp at hc
    · rw [if_neg hn] at hc
      rcases List.mem_append.mp hc with hc | hc
      · exact ih (n / 10) c hc
      · simp only [List.mem_singleton] at hc
        subst hc
        exact isDig_digitChar10 (n % 10)

theorem renderNat_digits (n : Nat) : ∀ c ∈ renderNat n, isDig c = true := by
  unfold renderNat
  by_cases hn : n = 0
  · rw [if_pos hn]
    intro c hc
    simp only [List.mem_singleton] at hc
    subst hc
    decide
  · rw [if_neg hn]
    exact renderNatAux_digits n n

theorem renderNat_ne_nil (n : Nat) : renderNat n ≠ [] := by
  unfold renderNat
  by_cases hn : n = 0
  · rw [if_pos hn]
    simp
  · rw [if_neg hn]
    obtain ⟨m, rfl⟩ : ∃ m, n = m + 1 := ⟨n - 1, by omega⟩
    unfold renderNatAux
    rw [if_neg hn]
    simp

theorem renderNatAux_val (fuel : Nat) :
    ∀ n a, n ≤ fuel →
    (renderNatAux fuel n).foldl (fun a c => 10 * a + digitVal c) a =
      a * 10 ^ (renderNatAux fuel n).length + n := by
  induction fuel with
  | zero =>
    intro n a hn
    have : n = 0 := by omega
    subst this
    simp [renderNatAux]
  | succ fuel ih =>
    intro n a hn
    by_cases hz : n = 0
    · subst hz
      simp [renderNatAux]
    · have hstep : renderNatAux (fuel + 1) n =
          if n = 0 then []
          else renderNatAux fuel (n / 10) ++ [digitChar10 (n % 10)] := rfl
      rw [hstep, if_neg hz, List.foldl_append]
      have hd : n / 10 ≤ fuel := by
        have := Nat.div_lt_self (Nat.pos_of_ne_zero hz) (by omega : 1 < 10)
        omega
      rw [List.foldl_cons, List.foldl_nil]
      rw [ih (n / 10) a hd]
      rw [digitVal_digitChar10 (n % 10) (Nat.mod_lt n (by omega))]
      rw [List.length_append, List.length_singleton]
      have hmod := Nat.div_add_mod n 10
      set L := (renderNatAux fuel (n / 10)).length
      have hring : 10 * (a * 10 ^ L + n / 10) + n % 10 =
          a * 10 ^ (L + 1) + (10 * (n / 10) + n % 10) := by ring
      rw [hring]
      omega

theorem parseDigits_renderNat (n : Nat) : parseDigits (renderNat n) = some n := by
  unfold parseDigits
  rw [if_pos ⟨renderNat_ne_nil n, List.all_eq_true.mpr (renderNat_digits n)⟩]
  congr 1
  unfold renderNat
  by_cases hn : n = 0
  · rw [if_pos hn]
    subst hn
    rfl
  · rw [if_neg hn]
    rw [renderNatAux_val n n 0 (Nat.le_refl n)]
    simp

theorem pyStrip_eq_self (cs : List Char)
    (h1 : ∀ c, cs.head? = some c → isWS c = false)
    (h2 : ∀ c, cs.getLast? = some c → isWS c = false) :
    pyStrip cs = cs := by
  unfold pyStrip
  have hdw : cs.dropWhile isWS = cs := by
    cases cs with
    | nil => rfl
    | cons c rest =>
      rw [List.dropWhile_cons, if_neg]
      simp [h1 c rfl]
  rw [hdw]
  have hdw2 : cs.reverse.dropWhile isWS = cs.reverse := by
    cases hrev : cs.reverse with
    | nil => rfl
    | cons c rest =>
      rw [List.dropWhile_cons, if_neg]
      have hlast : cs.getLast? = some c := by
        rw [← List.head?_reverse, hrev]
        rfl
      simp [h2 c hlast]
  rw [hdw2, List.reverse_reverse]

theorem not_isWS_dash : isWS '-' = false := by decide

theorem renderInt_head_ok (i : Int) :
    ∀ c, (renderInt i).head? = some c → isWS c = false ∧ c ≠ '#' ∧ c ≠ '+' := by
  intro c hc
  unfold renderInt at hc
  by_cases hi : i < 0
  · rw [if_pos hi] at hc
    simp only [List.head?_cons, Option.some.injEq] at hc
    subst hc
    refine ⟨by decide, by decide, by decide⟩
  · rw [if_neg hi] at hc
    have hd : isDig c = true := by
      apply renderNat_digits i.toNat
      cases hr : renderNat i.toNat with
      | nil => exact absurd hr (renderNat_ne_nil _)
      | cons x xs =>
        rw [hr] at hc
        simp only [List.head?_cons, Option.some.injEq] at hc
        subst hc
        simp
    refine ⟨not_isWS_of_isDig c hd, ne_hash_of_isDig c hd, ?_⟩
    intro hplus
    subst hplus
    revert hd
    decide

theorem sil_getLast?_mem {α : Type} (l : List α) (c : α)
    (h : l.getLast? = some c) : c ∈ l := by
  rw [← List.head?_reverse] at h
  cases hrev : l.reverse with
  | nil => rw [hrev] at h; cases h
  | cons x xs =>
    rw [hrev] at h
    simp only [List.head?_cons, Option.some.injEq] at h
    subst h
    have hx : x ∈ l.reverse := by
      rw [hrev]
      exact List.mem_cons_self x xs
    exact List.mem_reverse.mp hx

theorem sil_getLast?_cons {α : Type} (c : α) (l : List α) (h : l ≠ []) :
    (c :: l).getLast? = l.getLast? := by
  rw [← List.head?_reverse, ← List.head?_reverse, List.reverse_cons]
  cases hrev : l.reverse with
  | nil => exact absurd (by simpa using hrev) h
  | cons x xs => simp [hrev]

theorem renderInt_getLast_digit (i : Int) :
    ∀ c, (renderInt i).getLast? = some c → isDig c = true := by
  intro c hc
  unfold renderInt at hc
  by_cases hi : i < 0
  · rw [if_pos hi] at hc
    rw [sil_getLast?_cons _ _ (renderNat_ne_nil _)] at hc
    exact renderNat_digits _ c (sil_getLast?_mem _ c hc)
  · rw [if_neg hi] at hc
    exact renderNat_digits _ c (sil_getLast?_mem _ c hc)

theorem renderInt_ne_nil (i : Int) : renderInt i ≠ [] := by
  unfold renderInt
  by_cases hi : i < 0
  · rw [if_pos hi]
    simp
  · rw [if_neg hi]
    exact renderNat_ne_nil _

theorem renderInt_no_ws (i : Int) : ∀ c ∈ renderInt i, isWS c = false := by
  intro c hc
  unfold renderInt at hc
  by_cases hi : i < 0
  · rw [if_pos hi] at hc
    rcases List.mem_cons.mp hc with rfl | hc
    · decide
    · exact not_isWS_of_isDig c (renderNat_digits _ c hc)
  · rw [if_neg hi] at hc
    exact not_isWS_of_isDig c (renderNat_digits _ c hc)

theorem parsePyInt_renderInt (i : Int) : parsePyInt (renderInt i) = some i := by
  have hstrip : pyStrip (renderInt i) = renderInt i := by
    apply pyStrip_eq_self
    · intro c hc
      exact (renderInt_head_ok i c hc).1
    · intro c hc
      exact not_isWS_of_isDig c (renderInt_getLast_digit i c hc)
  unfold parsePyInt
  rw [hstrip]
  unfold renderInt
  by_cases hi : i < 0
  · rw [if_pos hi]
    show Option.map (fun n => -Int.ofNat n) (parseDigits (renderNat i.natAbs)) =
      some i
    rw [parseDigits_renderNat]
    simp only [Option.map_some', Option.some.injEq, Int.ofNat_eq_coe]
    omega
  · rw [if_neg hi]
    cases hr : renderNat i.toNat with
    | nil => exact absurd hr (renderNat_ne_nil _)
    | cons x xs =>
      have hxd : isDig x = true := by
        apply renderNat_digits i.toNat
        rw [hr]
        simp
      have hx1 : ¬ x = '-' := by
        intro h
        subst h
        revert hxd
        decide
      have hx2 : ¬ x = '+' := by
        intro h
        subst h
        revert hxd
        decide
      dsimp only
      rw [if_neg hx1, if_neg hx2, ← hr, parseDigits_renderNat]
      simp only [Option.map_some', Option.some.injEq, Int.ofNat_eq_coe]
      omega

theorem splitWSAux_no_ws_run (t : List Char) (hws : ∀ c ∈ t, isWS c = false) :
    ∀ (cur rest : List Char),
    splitWSAux cur (t ++ rest) = splitWSAux (cur ++ t) rest := by
  induction t with
  | nil => intro cur rest; simp
  | cons c t ih =>
    intro cur rest
    have hc : isWS c = false := hws c (List.mem_cons_self c t)
    rw [List.cons_append]
    show (if isWS c then _ else splitWSAux (cur ++ [c]) (t ++ rest)) = _
    rw [hc]
    simp only [Bool.false_eq_true, if_false]
    rw [ih (fun c hc => hws c (List.mem_cons_of_mem _ hc)) (cur ++ [c]) rest]
    rw [List.append_assoc]
    rfl

theorem pySplitWS_pair (t1 t2 : List Char)
    (h1 : t1 ≠ []) (h2 : t2 ≠ [])
    (hw1 : ∀ c ∈ t1, isWS c = false) (hw2 : ∀ c ∈ t2, isWS c = false) :
    pySplitWS (t1 ++ ' ' :: t2) = [t1, t2] := by
  unfold pySplitWS
  rw [splitWSAux_no_ws_run t1 hw1 [] (' ' :: t2)]
  rw [List.nil_append]
  show (if isWS ' ' then
      if t1.isEmpty then splitWSAux [] t2 else t1 :: splitWSAux [] t2
    else splitWSAux (t1 ++ [' ']) t2) = [t1, t2]
  rw [show isWS ' ' = true from rfl]
  simp only [if_true]
  rw [show t1.isEmpty = false from by
    cases t1 with
    | nil => exact absurd rfl h1
    | cons x xs => rfl]
  simp only [Bool.false_eq_true, if_false]
  have h := splitWSAux_no_ws_run t2 hw2 [] []
  rw [List.append_nil, List.nil_append] at h
  rw [h]
  show t1 :: (if t2.isEmpty then [] else [t2]) = [t1, t2]
  rw [show t2.isEmpty = false from by
    cases t2 with
    | nil => exact absurd rfl h2
    | cons x xs => rfl]
  rfl

theorem parse_edge_line_render (u v : Int) :
    parse_edge_line (renderInt u ++ ' ' :: renderInt v) = some (u, v) := by
  have hne1 := renderInt_ne_nil u
  have hne2 := renderInt_ne_nil v
  obtain ⟨c1, r1, hc1⟩ := List.exists_cons_of_ne_nil hne1
  have hhead : (renderInt u ++ ' ' :: renderInt v).head? = some c1 := by
    rw [hc1]
    rfl
  have hheadInt : (renderInt u).head? = some c1 := by
    rw [hc1]
    rfl
  have happ : (renderInt u ++ ' ' :: renderInt v).getLast? =
      (renderInt v).getLast? := by
    rw [← List.head?_reverse, ← List.head?_reverse, List.reverse_append,
      List.reverse_cons]
    cases hrev : (renderInt v).reverse with
    | nil => exact absurd (by simpa using hrev) hne2
    | cons x xs => simp [hrev]
  have hstrip : pyStrip (renderInt u ++ ' ' :: renderInt v) =
      renderInt u ++ ' ' :: renderInt v := by
    apply pyStrip_eq_self
    · intro c hc
      rw [hhead] at hc
      cases hc
      exact (renderInt_head_ok u c1 hheadInt).1
    · intro c hc
      rw [happ] at hc
      exact not_isWS_of_isDig c (renderInt_getLast_digit v c hc)
  unfold parse_edge_line
  dsimp only
  rw [hstrip]
  rw [show (renderInt u ++ ' ' :: renderInt v).isEmpty = false from by
    rw [hc1]
    rfl]
  simp only [Bool.false_eq_true, if_false]
  rw [hhead]
  rw [if_neg (by
    intro hcon
    exact (renderInt_head_ok u c1 hheadInt).2.1 (Option.some.inj hcon))]
  rw [pySplitWS_pair (renderInt u) (renderInt v) hne1 hne2
    (renderInt_no_ws u) (renderInt_no_ws v)]
  dsimp only
  rw [parsePyInt_renderInt u, parsePyInt_renderInt v]

theorem load_write_adj (edges : List (Int × Int)) :
    ∀ (st : LoadState),
    ((write_edge_file edges).foldl load_step st).adj =
      edges.foldl (fun a e => adjInsert a e.1 e.2) st.adj := by
  induction edges with
  | nil => intro st; rfl
  | cons e es ih =>
    intro st
    show ((write_edge_file es).foldl load_step
      (load_step st (renderInt e.1 ++ ' ' :: renderInt e.2))).adj = _
    have hstep : load_step st (renderInt e.1 ++ ' ' :: renderInt e.2) =
        ⟨adjInsert st.adj e.1 e.2, max st.maxV (max e.1 e.2), st.total + 1⟩ := by
      unfold load_step
      rw [parse_edge_line_render e.1 e.2]
    rw [hstep, ih]
    rfl

theorem plookup_adjInsert_ne (x y : Int) :
    ∀ (a : List (Int × List Int)) (u : Int), u ≠ x →
    plookup (adjInsert a x y) u = plookup a u := by
  intro a
  induction a with
  | nil =>
    intro u hu
    have hx : ¬ x = u := fun h => hu h.symm
    simp [adjInsert, plookup, hx]
  | cons p rest ih =>
    intro u hu
    obtain ⟨k, ns⟩ := p
    have hstep : adjInsert ((k, ns) :: rest) x y =
        if k = x then (k, if y ∈ ns then ns else ns ++ [y]) :: rest
        else (k, ns) :: adjInsert rest x y := rfl
    rw [hstep]
    by_cases hk : k = x
    · rw [if_pos hk]
      subst hk
      have hx : ¬ k = u := fun h => hu h.symm
      show (if k = u then _ else plookup rest u) =
        if k = u then some ns else plookup rest u
      rw [if_neg hx, if_neg hx]
    · rw [if_neg hk]
      show (if k = u then some ns else plookup (adjInsert rest x y) u) =
        if k = u then some ns else plookup rest u
      by_cases hku : k = u
      · rw [if_pos hku, if_pos hku]
      · rw [if_neg hku, if_neg hku]
        exact ih u hu

theorem plookup_adjInsert_self (x y : Int) :
    ∀ (a : List (Int × List Int)),
    plookup (adjInsert a x y) x = some
      (match plookup a x with
       | some ns => if y ∈ ns then ns else ns ++ [y]
       | none => [y]) := by
  intro a
  induction a with
  | nil => simp [adjInsert, plookup]
  | cons p rest ih =>
    obtain ⟨k, ns⟩ := p
    have hstep : adjInsert ((k, ns) :: rest) x y =
        if k = x then (k, if y ∈ ns then ns else ns ++ [y]) :: rest
        else (k, ns) :: adjInsert rest x y := rfl
    rw [hstep]
    by_cases hk : k = x
    · rw [if_pos hk]
      subst hk
      show (if k = k then some (if y ∈ ns then ns else ns ++ [y])
          else plookup rest k) = _
      rw [if_pos rfl]
      show _ = some (match (if k = k then some ns else plookup rest k) with
        | some ns => if y ∈ ns then ns else ns ++ [y]
        | none => [y])
      rw [if_pos rfl]
    · rw [if_neg hk]
      show (if k = x then some ns else plookup (adjInsert rest x y) x) = _
      rw [if_neg hk, ih]
      show _ = some (match (if k = x then some ns else plookup rest x) with
        | some ns => if y ∈ ns then ns else ns ++ [y]
        | none => [y])
      rw [if_neg hk]

theorem adjMem_adjInsert (x y : Int) (a : List (Int × List Int)) (u v : Int) :
    adjMem (adjInsert a x y) u v ↔ adjMem a u v ∨ (u = x ∧ v = y) := by
  by_cases hu : u = x
  · subst hu
    unfold adjMem
    rw [plookup_adjInsert_self]
    cases hax : plookup a u with
    | none =>
      simp only [Option.some.injEq]
      constructor
      · rintro ⟨ns', rfl, hv⟩
        simp only [List.mem_singleton] at hv
        exact Or.inr ⟨by simp, hv⟩
      · rintro (⟨ns', hns, _⟩ | ⟨-, hvy⟩)
        · cases hns
        · exact ⟨[y], rfl, by simp [hvy]⟩
    | some ns =>
      simp only [Option.some.injEq]
      constructor
      · rintro ⟨ns', rfl, hv⟩
        by_cases hy : y ∈ ns
        · rw [if_pos hy] at hv
          exact Or.inl ⟨ns, rfl, hv⟩
        · rw [if_neg hy] at hv
          rcases List.mem_append.mp hv with hv | hv
          · exact Or.inl ⟨ns, rfl, hv⟩
          · simp only [List.mem_singleton] at hv
            exact Or.inr ⟨by simp, hv⟩
      · rintro (⟨ns', hns, hv⟩ | ⟨-, hvy⟩)
        · cases hns
          refine ⟨_, rfl, ?_⟩
          by_cases hy : y ∈ ns
          · rw [if_pos hy]
            exact hv
          · rw [if_neg hy]
            exact List.mem_append_left _ hv
        · refine ⟨_, rfl, ?_⟩
          by_cases hy : y ∈ ns
          · rw [if_pos hy]
            rw [hvy]
            exact hy
          · rw [if_neg hy]
            rw [hvy]
            exact List.mem_append_right _ (List.mem_singleton.mpr rfl)
  · unfold adjMem
    rw [plookup_adjInsert_ne x y a u hu]
    constructor
    · exact fun h => Or.inl h
    · rintro (h | ⟨huv, -⟩)
      · exact h
      · exact absurd huv hu

theorem adjMem_foldl (edges : List (Int × Int)) :
    ∀ (a : List (Int × List Int)) (u v : Int),
    adjMem (edges.foldl (fun a e => adjInsert a e.1 e.2) a) u v ↔
      adjMem a u v ∨ (u, v) ∈ edges := by
  induction edges with
  | nil => intro a u v; simp
  | cons e es ih =>
    intro a u v
    rw [List.foldl_cons, ih]
    rw [adjMem_adjInsert]
    constructor
    · rintro ((h | ⟨rfl, rfl⟩) | h)
      · exact Or.inl h
      · exact Or.inr (List.mem_cons_self _ _)
      · exact Or.inr (List.mem_cons_of_mem _ h)
    · rintro (h | h)
      · exact Or.inl (Or.inl h)
      · rcases List.mem_cons.mp h with rfl | h
        · exact Or.inl (Or.inr ⟨rfl, rfl⟩)
        · exact Or.inr h

/-- C7 counterexample: writing the two-element sequence
`[(0,1), (0,1)]` and loading it back does not reproduce the sequence —
the loader's neighbour sets collapse the duplicate, leaving a single
edge. -/
theorem write_load_counterexample :
    loaded_edge_seq (write_edge_file [((0 : Int), (1 : Int)), (0, 1)]) ≠
      [(0, 1), (0, 1)] := by
  have h : loaded_edge_seq (write_edge_file [((0 : Int), (1 : Int)), (0, 1)]) =
      [(0, 1)] := by rfl
  rw [h]
  simp

/-- C7 amended: loading a file written by the edge file writer
reproduces exactly the written edges as a set — `(u, v)` is recorded in
the loaded adjacency iff it occurs in the written sequence (duplicates
collapse and edges are regrouped by source vertex, so the sequence
itself is not preserved). -/
theorem write_load_roundtrip_set (edges : List (Int × Int)) (u v : Int) :
    adjMem (load_graph_from_file (write_edge_file edges)).1 u v ↔
      (u, v) ∈ edges := by
  unfold load_graph_from_file
  dsimp only
  rw [load_write_adj]
  rw [adjMem_foldl]
  have hnil : ¬ adjMem (⟨[], -1, 0⟩ : LoadState).adj u v := by
    rintro ⟨ns, hns, _⟩
    cases hns
  simp [hnil]

theorem load_foldl_skip (lines : List (List Char)) :
    ∀ (st : LoadState),
    (lines.filter (fun l => (parse_edge_line l).isSome)).foldl load_step st =
      lines.foldl load_step st := by
  induction lines with
  | nil => intro st; rfl
  | cons l rest ih =>
    intro st
    rw [List.filter_cons]
    cases hl : parse_edge_line l with
    | none =>
      simp only [hl, Option.isSome_none, Bool.false_eq_true, if_false]
      have hstep : load_step st l = st := by
        unfold load_step
        rw [hl]
      rw [List.foldl_cons, hstep]
      exact ih st
    | some p =>
      simp only [hl, Option.isSome_some, if_true]
      rw [List.foldl_cons, List.foldl_cons]
      exact ih (load_step st l)

theorem load_foldl_maxV (lines : List (List Char)) :
    ∀ (st : LoadState),
    (lines.foldl load_step st).maxV =
      (lines.filterMap parse_edge_line).foldl
        (fun m p => max m (max p.1 p.2)) st.maxV := by
  induction lines with
  | nil => intro st; rfl
  | cons l rest ih =>
    intro st
    rw [List.foldl_cons, List.filterMap_cons]
    cases hl : parse_edge_line l with
    | none =>
      have hstep : load_step st l = st := by
        unfold load_step
        rw [hl]
      rw [hstep]
      exact ih st
    | some p =>
      have hstep : load_step st l =
          ⟨adjInsert st.adj p.1 p.2, max st.maxV (max p.1 p.2), st.total + 1⟩ := by
        unfold load_step
        rw [hl]
      rw [hstep, List.foldl_cons]
      exact ih _

theorem sil_foldl_max_nonneg (ids : List Int) (h : ∀ x ∈ ids, 0 ≤ x) :
    (ids.foldl max (-1)) + 1 =
      match ids.max? with
      | none => 0
      | some m => 1 + m := by
  cases ids with
  | nil => rfl
  | cons x xs =>
    rw [List.foldl_cons]
    rw [max_eq_right (by
      have := h x (List.mem_cons_self x xs)
      omega : (-1 : Int) ≤ x)]
    show List.foldl max x xs + 1 = 1 + xs.foldl max x
    omega

/-- C9: the loader's `inferredVertexCount` is `1 +` the maximum vertex
id over all parsed lines (`0` when no line parses), and lines that are
empty, comments, too short, or non-numeric are skipped without failing
and contribute nothing: filtering them away leaves the result
unchanged.  (Vertex ids are non-negative per the data model; the
hypothesis restricts inputs to that domain.) -/
theorem load_graph_spec (lines : List (List Char))
    (hnn : ∀ p ∈ lines.filterMap parse_edge_line, 0 ≤ p.1 ∧ 0 ≤ p.2) :
    load_graph_from_file (lines.filter (fun l => (parse_edge_line l).isSome)) =
      load_graph_from_file lines ∧
    (load_graph_from_file lines).2.1 =
      (match ((lines.filterMap parse_edge_line).map
          (fun p => max p.1 p.2)).max? with
       | none => 0
       | some m => 1 + m) := by
  constructor
  · unfold load_graph_from_file
    rw [load_foldl_skip]
  · unfold load_graph_from_file
    dsimp only
    rw [load_foldl_maxV]
    show (lines.filterMap parse_edge_line).foldl
        (fun m p => max m (max p.1 p.2)) (-1) + 1 = _
    rw [show (lines.filterMap parse_edge_line).foldl
        (fun m p => max m (max p.1 p.2)) (-1) =
        ((lines.filterMap parse_edge_line).map
          (fun p => max p.1 p.2)).foldl max (-1) from by
      rw [List.foldl_map]]
    apply sil_foldl_max_nonneg
    intro x hx
    rw [List.mem_map] at hx
    obtain ⟨p, hp, rfl⟩ := hx
    have := hnn p hp
    omega

/-- Closed instance of `load_graph_spec` on a file mixing valid,
malformed, comment and blank lines. -/
theorem load_graph_spec_witness :
    load_graph_from_file
        ((["0 1".toList, "# c".toList, "x".toList, "2 3".toList,
           "".toList]).filter (fun l => (parse_edge_line l).isSome)) =
      load_graph_from_file
        ["0 1".toList, "# c".toList, "x".toList, "2 3".toList, "".toList] ∧
    (load_graph_from_file
        ["0 1".toList, "# c".toList, "x".toList, "2 3".toList,
         "".toList]).2.1 =
      (match ((["0 1".toList, "# c".toList, "x".toList, "2 3".toList,
          "".toList].filterMap parse_edge_line).map
          (fun p => max p.1 p.2)).max? with
       | none => 0
       | some m => 1 + m) :=
  load_graph_spec
    ["0 1".toList, "# c".toList, "x".toList, "2 3".toList, "".toList]
    (by decide)
